import Mathlib

/-!
# Verification of the `stundenzettel-rs` core against its specification

Shallow embedding of `src/calendar.rs`, `src/generate.rs` and the checked
invariant of `src/main.rs`.

Modelling conventions:
* Rust `u32` values are embedded as `ℕ`.  Where an addition, subtraction
  or multiplication can overflow in the source, the wrap-around of
  release-mode Rust is made explicit with `% U32` (`U32 = 2^32`); where a
  claim's hypotheses rule overflow out, plain `ℕ` arithmetic is used and
  noted.
* Rust `i32` values are embedded as `ℤ`; the truncating `/` and `%` of Rust
  are `Int.tdiv` and `Int.tmod`.  Where an `i32` addition can overflow
  (`add_days`), the overflow is modelled as a panic: debug builds abort at
  the addition, and in release builds the wrapped value is negative there,
  so the following `u32` conversion `unwrap` aborts.
* A Rust panic (failed `unwrap`, failed `assert!`, out-of-range index,
  or a `rand` distribution constructed with an empty range) is modelled by
  `Option` (returning `none`) or by the `GenResult.panic` constructor.
* The random generator threaded through `src/generate.rs` is modelled as a
  stream `r : ℕ → ℕ` of raw draws together with a cursor index; a uniform
  sample from a nonempty range is the raw draw reduced into the range.
  This preserves exactly the set of attainable values of each draw.
* The unbounded rejection loop in `partition` is modelled with a retry
  budget (`fuel`); the loop body always runs at least once, and exhausting
  the budget is the distinct outcome `GenResult.diverge`.
-/

set_option maxRecDepth 100000

namespace Stz

/-- Constant `2^32`, the modulus of Rust `u32` arithmetic. -/
def U32 : ℕ := 2 ^ 32

/-! ## calendar.rs: `DayOfWeek` -/

/-- Embeds `enum DayOfWeek` from `src/calendar.rs`. -/
inductive DayOfWeek where
  | Sunday
  | Monday
  | Tuesday
  | Wednesday
  | Thursday
  | Friday
  | Saturday
  deriving DecidableEq, Repr

/-- Embeds `DayOfWeek::is_weekend` from `src/calendar.rs`. -/
def DayOfWeek.is_weekend : DayOfWeek → Bool
  | .Sunday => true
  | .Monday => false
  | .Tuesday => false
  | .Wednesday => false
  | .Thursday => false
  | .Friday => false
  | .Saturday => true

/-- Embeds `DayOfWeek::next` from `src/calendar.rs`: the cyclic successor. -/
def DayOfWeek.next : DayOfWeek → DayOfWeek
  | .Sunday => .Monday
  | .Monday => .Tuesday
  | .Tuesday => .Wednesday
  | .Wednesday => .Thursday
  | .Thursday => .Friday
  | .Friday => .Saturday
  | .Saturday => .Sunday

/-- Embeds `TryFrom<u32> for DayOfWeek` from `src/calendar.rs`. -/
def DayOfWeek.try_from (value : ℕ) : Option DayOfWeek :=
  match value with
  | 0 => some .Sunday
  | 1 => some .Monday
  | 2 => some .Tuesday
  | 3 => some .Wednesday
  | 4 => some .Thursday
  | 5 => some .Friday
  | 6 => some .Saturday
  | _ => none

/-- Embeds `try_from(value).unwrap()` as used in `codes::day_of_week`; the argument
is always a value reduced `% 7`, so the `unwrap` never panics and the
out-of-range branch is unreachable. -/
def DayOfWeek.ofCode (value : ℕ) : DayOfWeek :=
  (DayOfWeek.try_from value).getD .Sunday

/-! ## calendar.rs: leap years, month lengths, congruence codes -/

/-- Embeds `is_leap_year` from `src/calendar.rs`. -/
def is_leap_year (year : ℕ) : Bool :=
  year % 4 == 0 && (year % 100 != 0 || year % 400 == 0)

/-- Embeds `days_of_month` from `src/calendar.rs`. -/
def days_of_month (month : ℕ) (leap_year : Bool) : ℕ :=
  match month with
  | 2 => if leap_year then 29 else 28
  | 4 | 6 | 9 | 11 => 30
  | _ => 31

namespace codes

/-- Embeds `MONTH_CODES` from `src/calendar.rs::codes::get_month`. -/
def MONTH_CODES : List ℕ := [0, 3, 3, 6, 1, 4, 6, 2, 5, 0, 3, 5]

/-- Embeds `codes::get_month` from `src/calendar.rs`.  The source indexes the
array (a panic for `month ∉ [1, 12]`); every claim below constrains the
month to `[1, 12]`, where `getD` agrees with the source. -/
def get_month (month : ℕ) : ℕ :=
  MONTH_CODES.getD (month - 1) 0

/-- Embeds `codes::get_year` from `src/calendar.rs`. -/
def get_year (year : ℕ) : ℕ :=
  (year % 100 + year % 100 / 4) % 7

/-- Embeds `codes::get_century` from `src/calendar.rs`. -/
def get_century (year : ℕ) : ℕ :=
  (year / 100 + 1) * 6 % 8

/-- Embeds `codes::day_of_week` from `src/calendar.rs`.  The `u32` addition
`day + month_code` wraps modulo `2^32` before the reduction `% 7`. -/
def day_of_week (day month_code : ℕ) : DayOfWeek :=
  DayOfWeek.ofCode ((day + month_code) % U32 % 7)

end codes

/-! ## calendar.rs: `DateOfYear` and `add_days` -/

/-- Embeds `DateOfYear` from `src/calendar.rs`.  The `NonZeroU32` fields become
`ℕ`; validity (`day ≥ 1`, `month ∈ [1,12]`) is carried as hypotheses. -/
structure DateOfYear where
  day : ℕ
  month : ℕ
  deriving DecidableEq, Repr

/-- Embeds `DateOfYear::new_checked` from `src/calendar.rs`: `NonZeroU32::new`
yields `None` exactly on zero. -/
def DateOfYear.new_checked (day month : ℕ) : Option DateOfYear :=
  if day = 0 ∨ month = 0 then none else some ⟨day, month⟩

/-- Embeds `DAYS_TO_MONTH` from `src/calendar.rs::DateOfYear::add_days`:
cumulative days before the start of each month (non-leap / leap). -/
def DAYS_TO_MONTH (leap_year : Bool) : List ℕ :=
  if leap_year then
    [0, 31, 60, 91, 121, 152, 182, 213, 244, 274, 305, 335]
  else
    [0, 31, 59, 90, 120, 151, 181, 212, 243, 273, 304, 334]

/-- Embeds `DateOfYear::add_days` from `src/calendar.rs`.

`none` models a panic: the table index for `month ∉ [1,12]`; the failing
`u32 → i32` conversion when the day-of-year exceeds `i32::MAX`; the `i32`
overflow of `day_of_year + days` when the sum exceeds `i32::MAX` (debug
builds abort at the addition; release builds wrap it to a negative value —
the sum is below `2^32` for any valid date and `i32` delta — so the
following `u32` conversion `unwrap` aborts: a panic either way); the
failing `i32 → u32` conversion on a negative shifted day-of-year; and the
failing `checked_sub(1).unwrap()` when the binary search lands before the
first table entry (shifted day-of-year `0`).

`binary_search` on the strictly increasing table returns `Ok(i)` on an
exact match at `i` and `Err(p)` with `p` the insertion point otherwise; in
both cases the code takes that value minus one, which equals
(number of table entries `< v`) − 1.  The embedding computes the month
index directly as that count minus one. -/
def DateOfYear.add_days (self : DateOfYear) (days : ℤ) (leap_year : Bool) :
    Option DateOfYear :=
  if self.month = 0 ∨ 12 < self.month then none
  else
    let table := DAYS_TO_MONTH leap_year
    let day_of_year : ℤ := (table.getD (self.month - 1) 0 + self.day : ℕ)
    if 2 ^ 31 - 1 < day_of_year then none
    else
      let shifted : ℤ := day_of_year + days
      if shifted < 0 ∨ 2 ^ 31 - 1 < shifted then none
      else
        let v := shifted.toNat
        let c := table.countP fun e => decide (e < v)
        if c = 0 then none
        else some ⟨v - table.getD (c - 1) 0, c⟩

/-! ## calendar.rs: `Year` -/

/-- Embeds `Year` from `src/calendar.rs`. -/
structure Year where
  year : ℕ
  is_leap : Bool
  combined_code : ℕ

/-- Embeds `Year::new` from `src/calendar.rs`.  The `u32` expression
`year_code + century_code - is_leap as u32` can underflow (both codes can
be `0` in a leap year, e.g. `year = 1984`); release-mode Rust wraps, which
the embedding writes as adding `U32 - bit` and reducing `% U32`. -/
def Year.new (year : ℕ) : Year :=
  let year_code := codes.get_year year
  let century_code := codes.get_century year
  let is_leap := is_leap_year year
  let combined_code :=
    (year_code + century_code + (U32 - if is_leap then 1 else 0)) % U32
  ⟨year, is_leap, combined_code⟩

/-- Embeds `Year::days_of_month` from `src/calendar.rs`. -/
def Year.days_of_month (self : Year) (month : ℕ) : ℕ :=
  Stz.days_of_month month self.is_leap

/-- Embeds `Year::easter` from `src/calendar.rs` (Gauss's Easter algorithm on
`i32`, embedded on `ℤ` with truncating division and remainder). -/
def Year.easter (self : Year) : Option DateOfYear :=
  let year : ℤ := self.year
  let k := year.tdiv 100
  let m := 15 + (3 * k + 3).tdiv 4 - (8 * k + 13).tdiv 25
  let s := 2 - (3 * k + 3).tdiv 4
  let a := year.tmod 19
  let d := (19 * a + m).tmod 30
  let r := (d + a.tdiv 11).tdiv 29
  let og := 21 + d - r
  let sz := 7 - (year + year.tdiv 4 + s).tmod 7
  let oe := 7 - (og - sz).tmod 7
  let os := og + oe
  DateOfYear.add_days ⟨1, 3⟩ (os - 1) self.is_leap

/-- Embeds `Year::holidays` from `src/calendar.rs`: the 13 holiday dates in source
order.  `none` models a panic propagating out of `easter`/`add_days`. -/
def Year.holidays (self : Year) : Option (List DateOfYear) := do
  let easter ← self.easter
  let new_years_day ← DateOfYear.new_checked 1 1
  let epiphany ← DateOfYear.new_checked 6 1
  let good_friday ← easter.add_days (-2) self.is_leap
  let easter_monday ← easter.add_days 1 self.is_leap
  let labor_day ← DateOfYear.new_checked 1 5
  let ascension_day ← easter.add_days 39 self.is_leap
  let whit_monday ← easter.add_days 50 self.is_leap
  let corpus_christi ← easter.add_days 60 self.is_leap
  let assumption_day ← DateOfYear.new_checked 15 8
  let german_unity_day ← DateOfYear.new_checked 3 10
  let all_saints ← DateOfYear.new_checked 1 11
  let christmas_day ← DateOfYear.new_checked 25 12
  let boxing_day ← DateOfYear.new_checked 26 12
  pure [new_years_day, epiphany, good_friday, easter_monday, labor_day,
    ascension_day, whit_monday, corpus_christi, assumption_day,
    german_unity_day, all_saints, christmas_day, boxing_day]

/-! ## calendar.rs: `Month` and the day walker -/

/-- Embeds `DayOfMonth` from `src/calendar.rs`. -/
structure DayOfMonth where
  day_of_week : DayOfWeek
  day_of_month : ℕ
  deriving DecidableEq, Repr

/-- Embeds `Month` from `src/calendar.rs`. -/
structure Month where
  month : ℕ
  combined_code : ℕ
  num_days : ℕ

/-- Embeds `Month::new` from `src/calendar.rs`; the `u32` addition wraps. -/
def Month.new (month : ℕ) (year : Year) : Month :=
  ⟨month, (year.combined_code + codes.get_month month) % U32,
    year.days_of_month month⟩

/-- Embeds `Month::day_of_week` from `src/calendar.rs`. -/
def Month.day_of_week (self : Month) (day : ℕ) : DayOfWeek :=
  codes.day_of_week day self.combined_code

/-- The unfolding of `std::iter::successors` in `Month::days`: emit the
current day, then continue with the next day while
`day_of_month + 1 < num_days`.  The extra argument `fuel` only makes the
recursion structural (so that it evaluates by kernel reduction); the
continuation condition is the source's guard, and `Month.days` passes
`num_days` as fuel, which `daysFrom_fuel_irrelevant`-style reasoning shows
is never exhausted because the day-of-month strictly increases towards
`num_days`. -/
def Month.daysFrom (self : Month) (dow : DayOfWeek) (dom : ℕ) :
    ℕ → List DayOfMonth
  | 0 => [⟨dow, dom⟩]
  | fuel + 1 =>
    if dom + 1 < self.num_days then
      ⟨dow, dom⟩ :: self.daysFrom dow.next (dom + 1) fuel
    else
      [⟨dow, dom⟩]

/-- Embeds `Month::days` from `src/calendar.rs`, collected into a list. -/
def Month.days (self : Month) : List DayOfMonth :=
  self.daysFrom (self.day_of_week 1) 1 self.num_days

/-- Embeds `non_holidays_of_month` from `src/calendar.rs`. -/
def non_holidays_of_month (month : Month) (year : Year) :
    Option (List DayOfMonth) :=
  year.holidays.map fun holidays =>
    month.days.filter fun day =>
      !day.day_of_week.is_weekend &&
        !holidays.contains (DateOfYear.mk day.day_of_month month.month)

/-! ## generate.rs -/

/-- Outcome of a computation that may panic or loop: `panic` models a Rust
panic (failed `assert!` or a `rand` uniform distribution built over an
empty range), `diverge` models exhausting the retry budget of the
rejection loop without the source code returning. -/
inductive GenResult (α : Type) where
  | panic : GenResult α
  | diverge : GenResult α
  | ok : α → GenResult α
  deriving DecidableEq, Repr

/-- Outcome of one body of the rejection loop (`partition_inner`):
panic, `false` (sample rejected) or `true` with the filled target. -/
inductive InnerResult where
  | panic : InnerResult
  | reject : InnerResult
  | ok : List ℕ → InnerResult
  deriving DecidableEq, Repr

/-- One sample of `UniformInt::<u32>::new(0, n)` (a *half-open* range
`[0, n)`) from the raw draw `raw`: the attainable values are exactly
`0, …, n-1`.  Constructing the distribution with `n = 0` panics in `rand`
(empty range); that case is guarded at the call site. -/
def drawOffset (n raw : ℕ) : ℕ := raw % n

/-- The target-filling loop of `partition_inner`: gaps between consecutive
offsets (and the final gap up to `n`), failing (`false` in the source) when
a gap exceeds `max`. -/
def buildParts (n max : ℕ) : ℕ → List ℕ → Option (List ℕ)
  | last, [] => if max < n - last then none else some [n - last]
  | last, i :: rest =>
    if max < i - last then none
    else (buildParts n max i rest).map ((i - last) :: ·)

/-- Embeds `partition_inner` from `src/generate.rs`.  The raw draws are
`r idx, …, r (idx + k - 2)`.  Panics modelled: `UniformInt::new(0, n)`
with `n = 0` (empty range), and the `usize` underflow of
`k as usize - 1` for `k = 0`.  `sort_unstable` sorts ascending; on `ℕ`
with `≤` the sorted permutation is unique, so any sort renders it —
`List.insertionSort` is used because it evaluates by kernel reduction. -/
def partition_inner (n k max : ℕ) (r : ℕ → ℕ) (idx : ℕ) : InnerResult :=
  if n = 0 then .panic
  else if k = 0 then .panic
  else
    match buildParts n max 0
        (List.insertionSort (· ≤ ·)
          ((List.range (k - 1)).map fun i => drawOffset n (r (idx + i)))) with
    | none => .reject
    | some parts => .ok parts

/-- Embeds `partition` from `src/generate.rs`: rejection loop over
`partition_inner`.  `fuel` bounds the number of *retries*; the body always
runs at least once.  On success also returns the cursor into the raw draw
stream after the consumed draws. -/
def partition (n k max : ℕ) (r : ℕ → ℕ) : ℕ → ℕ → GenResult (List ℕ × ℕ)
  | 0, idx =>
    match partition_inner n k max r idx with
    | .panic => .panic
    | .reject => .diverge
    | .ok parts => .ok (parts, idx + (k - 1))
  | fuel + 1, idx =>
    match partition_inner n k max r idx with
    | .panic => .panic
    | .reject => partition n k max r fuel (idx + (k - 1))
    | .ok parts => .ok (parts, idx + (k - 1))

/-- Embeds `Time` from `src/generate.rs`.  The field `to` is named `upto` (`to` is
reserved in this embedding's host language); `from` likewise. -/
structure Time where
  fromH : ℕ
  upto : ℕ
  deriving DecidableEq, Repr

/-- Embeds `Parameters` from `src/generate.rs`. -/
structure Parameters where
  hours : ℕ
  days : ℕ
  fromH : ℕ
  upto : ℕ
  max_per_day : ℕ
  deriving DecidableEq, Repr

/-- The second `map` of `generate_times`: turn one day's duration into a
time slot, drawing the start of a nonempty slot uniformly from
`[from, to - duration]` (`UniformInt::new_inclusive`), which panics when
that range is empty (`from > to - duration`).  Under the claims'
preconditions `to - duration` never underflows, so the `u32` subtraction
is plain `ℕ` subtraction. -/
def emitTimes (fromH upto : ℕ) (r : ℕ → ℕ) :
    List ℕ → ℕ → GenResult (List (Option Time))
  | [], _ => .ok []
  | duration :: rest, idx =>
    if duration = 0 then
      match emitTimes fromH upto r rest idx with
      | .ok ts => .ok (none :: ts)
      | .panic => .panic
      | .diverge => .diverge
    else if upto - duration < fromH then .panic
    else
      let start := fromH + r idx % (upto - duration - fromH + 1)
      match emitTimes fromH upto r rest (idx + 1) with
      | .ok ts => .ok (some ⟨start, start + duration⟩ :: ts)
      | .panic => .panic
      | .diverge => .diverge

/-- The quantity handed to `partition` by `generate_times`: the requested
hours, or — when at least half the capacity is requested — the complement
(free time) to be distributed instead.  The capacity
`days * max_per_day` is a `u32` multiplication in the source and wraps
modulo `2^32` in release builds. -/
def distributeOf (p : Parameters) : ℕ :=
  let max_total := p.days * p.max_per_day % U32
  if max_total / 2 ≤ p.hours then max_total - p.hours else p.hours

/-- Embeds `generate_times` from `src/generate.rs`.  The `u32` product
`days * max_per_day` wraps modulo `2^32`; the failing `assert!` is a
panic; the two `map`s over `durations` are fused into `emitTimes`, which
consumes one raw draw per nonzero duration in order, exactly as the
source's iterator chain does.  (`max_per_day - duration` cannot wrap: a
successful `partition` caps every part at `max_per_day`.) -/
def generate_times (p : Parameters) (r : ℕ → ℕ) (fuel : ℕ) :
    GenResult (List (Option Time)) :=
  let max_total := p.days * p.max_per_day % U32
  if max_total < p.hours then .panic
  else
    let distribute_free_time := max_total / 2 ≤ p.hours
    match partition (distributeOf p) p.days p.max_per_day r fuel 0 with
    | .panic => .panic
    | .diverge => .diverge
    | .ok (durations, idx) =>
      emitTimes p.fromH p.upto r
        (durations.map fun duration =>
          if distribute_free_time then p.max_per_day - duration
          else duration)
        idx

/-- The per-day hour count used by the caller's invariant check in
`src/main.rs`: `v.as_ref().map(|t| t.to - t.from).unwrap_or_default()`. -/
def slotHours : Option Time → ℕ
  | none => 0
  | some t => t.upto - t.fromH

/-! ## Ground truth: the Gregorian weekday

Reference definitions (not taken from the source): day counting in the
proleptic Gregorian calendar, anchored so that January 1, 2000 is a
Saturday.  They are used to state what the *true* weekday of a date is. -/

/-- Number of days of the Gregorian year `y` (ground truth; uses the
same leap rule the source implements). -/
def yearLength (y : ℕ) : ℕ :=
  if is_leap_year y then 366 else 365

/-- Number of days from January 1 of year 0 to January 1 of year `y` in
the proleptic Gregorian calendar (ground truth). -/
def totalDays : ℕ → ℕ
  | 0 => 0
  | y + 1 => totalDays y + yearLength y

/-- Day-of-year (1-based) of a (month, day) pair (ground truth; the
cumulative table coincides with the source's `DAYS_TO_MONTH`). -/
def dayOfYearOf (leap : Bool) (month day : ℕ) : ℕ :=
  (DAYS_TO_MONTH leap).getD (month - 1) 0 + day

/-- Number of days of a year with the given leap flag (spec-side). -/
def daysInYear (leap : Bool) : ℕ :=
  if leap then 366 else 365

/-- Validity of a `DateOfYear` for a leap flag: the invariant stated in
the specification's data model. -/
abbrev validDate (leap : Bool) (d : DateOfYear) : Prop :=
  1 ≤ d.month ∧ d.month ≤ 12 ∧ 1 ≤ d.day ∧ d.day ≤ days_of_month d.month leap

/-- The date reconstructed from a day-of-year exactly the way `add_days`
reconstructs it: month index = (number of cumulative-table entries < v),
day = v minus the last table entry below v. -/
def dateOfDoy (leap : Bool) (v : ℕ) : DateOfYear :=
  ⟨v - (DAYS_TO_MONTH leap).getD
      ((DAYS_TO_MONTH leap).countP (fun e => decide (e < v)) - 1) 0,
    (DAYS_TO_MONTH leap).countP (fun e => decide (e < v))⟩

/-- The true Gregorian weekday of a date.  The offset 5 anchors the count:
January 1, 2000 (day number 730486) is a Saturday and January 1, 1970 a
Thursday — see `trueDayOfWeek_anchors`. -/
def trueDayOfWeek (year month day : ℕ) : DayOfWeek :=
  DayOfWeek.ofCode ((totalDays year + dayOfYearOf (is_leap_year year) month day + 5) % 7)

/-! ## Helper lemmas: day counting -/

/-- Unfolds `yearLength` into a propositional leap-year condition. -/
theorem yearLength_eq (y : ℕ) :
    yearLength y = if y % 4 = 0 ∧ (y % 100 ≠ 0 ∨ y % 400 = 0) then 366 else 365 := by
  unfold yearLength is_leap_year
  by_cases h4 : y % 4 = 0 <;> by_cases h100 : y % 100 = 0 <;>
    by_cases h400 : y % 400 = 0 <;> simp [h4, h100, h400]

/-- Closed form of the day count (in subtraction-free shape). -/
theorem totalDays_closed (y : ℕ) :
    totalDays y + (y + 99) / 100 = 365 * y + (y + 3) / 4 + (y + 399) / 400 := by
  induction y with
  | zero => rfl
  | succ n ih =>
    show totalDays n + yearLength n + (n + 100) / 100
        = 365 * (n + 1) + (n + 4) / 4 + (n + 400) / 400
    rw [yearLength_eq]
    split <;> omega

/-- Closed form of the day count, usable for fast evaluation at concrete
years (the recursive definition is too deep for kernel reduction). -/
theorem totalDays_eq (y : ℕ) :
    totalDays y = 365 * y + (y + 3) / 4 + (y + 399) / 400 - (y + 99) / 100 := by
  have := totalDays_closed y
  omega

/-- Sanity anchors of the ground-truth weekday: January 1, 2000 was a
Saturday; January 1, 1970 was a Thursday; March 1, 2000 was a Wednesday;
March 1, 1984 was a Thursday; December 25, 2023 was a Monday. -/
theorem trueDayOfWeek_anchors :
    trueDayOfWeek 2000 1 1 = .Saturday ∧ trueDayOfWeek 1970 1 1 = .Thursday ∧
      trueDayOfWeek 2000 3 1 = .Wednesday ∧ trueDayOfWeek 1984 3 1 = .Thursday ∧
      trueDayOfWeek 2023 12 25 = .Monday := by
  simp only [trueDayOfWeek, totalDays_eq]
  decide

/-! ## Helper lemmas: the partition sampler -/

/-- Specification of the gap-building loop: on success it yields one part
per offset plus a final part, every part is capped by `max`, and the parts
telescope to `n - last`. -/
theorem buildParts_spec (n max : ℕ) :
    ∀ (offsets : List ℕ) (last : ℕ) (parts : List ℕ),
      last ≤ n → (∀ i ∈ offsets, i ≤ n) → offsets.Pairwise (· ≤ ·) →
      (∀ i ∈ offsets, last ≤ i) →
      buildParts n max last offsets = some parts →
      parts.length = offsets.length + 1 ∧ (∀ x ∈ parts, x ≤ max) ∧
        parts.sum + last = n
  | [], last, parts, hlast, _, _, _, h => by
    unfold buildParts at h
    split at h
    · exact absurd h (by simp)
    · rename_i hle
      obtain rfl : [n - last] = parts := by simpa using h
      refine ⟨by simp, ?_, by simp; omega⟩
      intro x hx
      simp at hx
      omega
  | i :: rest, last, parts, hlast, hmem, hpair, hlb, h => by
    unfold buildParts at h
    split at h
    · exact absurd h (by simp)
    · rename_i hle
      rw [Option.map_eq_some'] at h
      obtain ⟨parts', hp', rfl⟩ := h
      have hin : i ≤ n := hmem i (by simp)
      have hlbi : last ≤ i := hlb i (by simp)
      have ih := buildParts_spec n max rest i parts' hin
        (fun j hj => hmem j (by simp [hj]))
        (List.Pairwise.sublist (List.sublist_cons_self i rest) hpair)
        (fun j hj => (List.pairwise_cons.mp hpair).1 j hj)
        hp'
      refine ⟨by simp [ih.1], ?_, ?_⟩
      · intro x hx
        rcases List.mem_cons.mp hx with rfl | hx'
        · omega
        · exact ih.2.1 x hx'
      · have := ih.2.2
        simp only [List.sum_cons]
        omega

/-- Specification of one loop body: when `partition_inner` returns `true`,
the target holds exactly `k` parts, each capped by `max`, summing to `n`. -/
theorem partition_inner_ok {n k max : ℕ} {r : ℕ → ℕ} {idx : ℕ}
    {parts : List ℕ} (h : partition_inner n k max r idx = .ok parts) :
    parts.length = k ∧ (∀ x ∈ parts, x ≤ max) ∧ parts.sum = n := by
  unfold partition_inner at h
  split at h
  · exact absurd h (by simp)
  split at h
  · exact absurd h (by simp)
  rename_i hn hk
  set l := (List.range (k - 1)).map (fun i => drawOffset n (r (idx + i))) with hl
  set sorted := List.insertionSort (· ≤ ·) l with hsorted
  have hperm : sorted.Perm l := List.perm_insertionSort _ l
  have hmem : ∀ i ∈ sorted, i ≤ n := by
    intro i hi
    have : i ∈ l := hperm.mem_iff.mp hi
    obtain ⟨j, _, rfl⟩ := List.mem_map.mp this
    exact le_of_lt (Nat.mod_lt _ (Nat.pos_of_ne_zero hn))
  have hpair : sorted.Pairwise (· ≤ ·) := List.sorted_insertionSort _ l
  have hlen : sorted.length = k - 1 := by
    rw [hperm.length_eq]
    simp [hl]
  cases hb : buildParts n max 0 sorted with
  | none => rw [hb] at h; exact absurd h (by simp)
  | some parts' =>
    rw [hb] at h
    obtain rfl : parts' = parts := by simpa using h
    have hspec := buildParts_spec n max sorted 0 parts' (Nat.zero_le n)
      hmem hpair (fun i _ => Nat.zero_le i) hb
    refine ⟨?_, hspec.2.1, ?_⟩
    · rw [hspec.1, hlen]
      omega
    · have := hspec.2.2
      omega

/-- Specification of the rejection loop: whatever the fuel, a successful
return satisfies the `partition_inner` success specification. -/
theorem partition_ok {n k max : ℕ} {r : ℕ → ℕ} :
    ∀ {fuel idx idx' : ℕ} {parts : List ℕ},
      partition n k max r fuel idx = .ok (parts, idx') →
      parts.length = k ∧ (∀ x ∈ parts, x ≤ max) ∧ parts.sum = n := by
  intro fuel
  induction fuel with
  | zero =>
    intro idx idx' parts h
    unfold partition at h
    cases hi : partition_inner n k max r idx with
    | panic => rw [hi] at h; exact absurd h (by simp)
    | reject => rw [hi] at h; exact absurd h (by simp)
    | ok parts' =>
      rw [hi] at h
      obtain ⟨rfl, -⟩ : parts' = parts ∧ idx + (k - 1) = idx' := by
        simpa using h
      exact partition_inner_ok hi
  | succ fuel ih =>
    intro idx idx' parts h
    unfold partition at h
    cases hi : partition_inner n k max r idx with
    | panic => rw [hi] at h; exact absurd h (by simp)
    | reject => rw [hi] at h; exact ih h
    | ok parts' =>
      rw [hi] at h
      obtain ⟨rfl, -⟩ : parts' = parts ∧ idx + (k - 1) = idx' := by
        simpa using h
      exact partition_inner_ok hi

/-- The sampler `partition 0 k max` always panics: `UniformInt::new(0, 0)`
is constructed over an empty range before any sampling happens. -/
theorem partition_zero (k max : ℕ) (r : ℕ → ℕ) (fuel idx : ℕ) :
    partition 0 k max r fuel idx = .panic := by
  cases fuel <;> simp [partition, partition_inner]

/-! ## C1 -/

/-- C1: for every (n, k, max) with k ≥ 1 and k*max ≥ n ≥ 0, and for every
random source (raw-draw stream, cursor and retry budget), whenever
`partition(n, k, max, rng)` returns, it returns exactly k non-negative
integers (the codomain `ℕ` carries non-negativity), each ≤ max, summing
exactly to n. -/
theorem partition_returns_exact_capped_decomposition
    (n k max : ℕ) (r : ℕ → ℕ) (fuel idx idx' : ℕ) (parts : List ℕ)
    (_hk : 1 ≤ k) (_hfeasible : n ≤ k * max)
    (hret : partition n k max r fuel idx = .ok (parts, idx')) :
    parts.length = k ∧ (∀ x ∈ parts, x ≤ max) ∧ parts.sum = n :=
  partition_ok hret

/-- Witness for C1: a concrete successful run, n = 2, k = 2, max = 2. -/
theorem partition_returns_exact_capped_decomposition_witness :
    ([1, 1] : List ℕ).length = 2 ∧ (∀ x ∈ ([1, 1] : List ℕ), x ≤ 2) ∧
      ([1, 1] : List ℕ).sum = 2 :=
  partition_returns_exact_capped_decomposition 2 2 2 (fun _ => 1) 1 0 1
    [1, 1] (by decide) (by decide) (by decide)

/-! ## C9 -/

/-- C9: `generate_times` panics (via the empty uniform range
`UniformInt::new(0, 0)` in the sampler) whenever the quantity handed to
the partition sampler (`distributeOf`, computed from the wrapped `u32`
capacity) is zero and the `assert!` passes; in particular every
`Parameters` with days ≥ 1 and a `u32`-representable hours =
days * max_per_day reaches that panic although it satisfies the
precondition hours ≤ days * max_per_day — the partition of n = 0 into k
parts is never produced. -/
theorem generate_times_panics_on_zero_distribute :
    (∀ (p : Parameters) (r : ℕ → ℕ) (fuel : ℕ),
      p.hours ≤ p.days * p.max_per_day % U32 → distributeOf p = 0 →
      generate_times p r fuel = .panic) ∧
    (∀ p : Parameters, 1 ≤ p.days → p.hours < U32 →
      p.hours = p.days * p.max_per_day →
      p.hours ≤ p.days * p.max_per_day ∧
        p.hours ≤ p.days * p.max_per_day % U32 ∧ distributeOf p = 0) := by
  constructor
  · intro p r fuel h1 h2
    unfold generate_times
    rw [if_neg (by omega), h2, partition_zero]
  · intro p hdays hrep hfull
    have hlt : p.days * p.max_per_day < U32 := by omega
    have hw : p.days * p.max_per_day % U32 = p.days * p.max_per_day :=
      Nat.mod_eq_of_lt hlt
    refine ⟨le_of_eq hfull, by omega, ?_⟩
    unfold distributeOf
    rw [hw, if_pos (by omega)]
    omega

/-- Witness for C9: hours 16 = 2 days × 8 hours/day panics. -/
theorem generate_times_panics_on_zero_distribute_witness :
    generate_times ⟨16, 2, 8, 20, 8⟩ (fun _ => 0) 3 = .panic :=
  generate_times_panics_on_zero_distribute.1 ⟨16, 2, 8, 20, 8⟩ (fun _ => 0) 3
    (by decide) (by decide)

/-! ## C8 -/

/-- Helper: a cons keeps the last element of a nonempty tail. -/
theorem getLast?_cons_of_some {α : Type} {a x : α} {l : List α}
    (h : l.getLast? = some x) : (a :: l).getLast? = some x := by
  cases l with
  | nil => simp at h
  | cons b t => rw [List.getLast?_cons_cons]; exact h

/-- Helper: the final part built by the gap loop is `n` minus the last
offset (or `n - last` when there are no offsets). -/
theorem buildParts_getLast (n max : ℕ) :
    ∀ (offsets : List ℕ) (last : ℕ) (parts : List ℕ),
      buildParts n max last offsets = some parts →
      ∃ l', (l' = last ∨ l' ∈ offsets) ∧ parts.getLast? = some (n - l')
  | [], last, parts, h => by
    unfold buildParts at h
    split at h
    · exact absurd h (by simp)
    · obtain rfl : [n - last] = parts := by simpa using h
      exact ⟨last, Or.inl rfl, rfl⟩
  | i :: rest, last, parts, h => by
    unfold buildParts at h
    split at h
    · exact absurd h (by simp)
    · rw [Option.map_eq_some'] at h
      obtain ⟨parts', hp', rfl⟩ := h
      obtain ⟨l', hl', hlast⟩ := buildParts_getLast n max rest i parts' hp'
      refine ⟨l', ?_, getLast?_cons_of_some hlast⟩
      rcases hl' with rfl | hmem
      · exact Or.inr (by simp)
      · exact Or.inr (by simp [hmem])

/-- Counterexample to C8 as stated: the claim asserts the value n itself
is an attainable cut point for some random source (inclusive range
[0, n]); at n = 5 no raw draw of `UniformInt::new(0, 5)` can produce the
cut point 5. -/
theorem cut_point_n_unattainable : ¬ ∃ raw, drawOffset 5 raw = 5 := by
  rintro ⟨raw, h⟩
  unfold drawOffset at h
  omega

/-- C8 (amended): each of the k−1 cut points is drawn from the half-open
integer range [0, n): every value < n is attainable, the value n never is,
and consequently on every successful `partition_inner` run the final part
is at least 1 (a zero-size part can only occur at earlier positions). -/
theorem cut_points_are_half_open :
    (∀ n raw, 1 ≤ n → drawOffset n raw < n) ∧
    (∀ n v, v < n → drawOffset n v = v) ∧
    (∀ (n k max : ℕ) (r : ℕ → ℕ) (idx : ℕ) (parts : List ℕ), 1 ≤ n →
      partition_inner n k max r idx = .ok parts →
      ∃ p, parts.getLast? = some p ∧ 1 ≤ p) := by
  refine ⟨fun n raw hn => Nat.mod_lt _ hn, fun n v hv => Nat.mod_eq_of_lt hv, ?_⟩
  intro n k max r idx parts hn h
  unfold partition_inner at h
  split at h
  · exact absurd h (by simp)
  split at h
  · exact absurd h (by simp)
  rename_i h0 hk
  set sorted :=
    List.insertionSort (· ≤ ·)
      ((List.range (k - 1)).map fun i => drawOffset n (r (idx + i))) with hsorted
  cases hb : buildParts n max 0 sorted with
  | none => rw [hb] at h; exact absurd h (by simp)
  | some parts' =>
    rw [hb] at h
    obtain rfl : parts' = parts := by simpa using h
    obtain ⟨l', hl', hlast⟩ := buildParts_getLast n max sorted 0 parts' hb
    refine ⟨n - l', hlast, ?_⟩
    rcases hl' with rfl | hmem
    · omega
    · have : l' ∈ ((List.range (k - 1)).map fun i => drawOffset n (r (idx + i))) :=
        (List.perm_insertionSort _ _).mem_iff.mp hmem
      obtain ⟨j, _, rfl⟩ := List.mem_map.mp this
      have : drawOffset n (r (idx + j)) < n := Nat.mod_lt _ (by omega)
      omega

/-- Witness for C8 (amended): concrete instances of all three parts. -/
theorem cut_points_are_half_open_witness :
    drawOffset 5 3 < 5 ∧ drawOffset 5 3 = 3 ∧
      ∃ p, ([1, 1] : List ℕ).getLast? = some p ∧ 1 ≤ p :=
  ⟨cut_points_are_half_open.1 5 3 (by decide),
   cut_points_are_half_open.2.1 5 3 (by decide),
   cut_points_are_half_open.2.2 2 2 2 (fun _ => 1) 0 [1, 1] (by decide)
     (by decide)⟩

/-! ## C2 -/

/-- Helper: when every duration fits in the window, `emitTimes` succeeds
and the emitted slots reproduce the durations day by day. -/
theorem emitTimes_spec (fromH upto : ℕ) (r : ℕ → ℕ) :
    ∀ (durs : List ℕ) (idx : ℕ),
      (∀ d ∈ durs, d ≤ upto - fromH) →
      ∃ ts, emitTimes fromH upto r durs idx = .ok ts ∧
        ts.map slotHours = durs
  | [], idx, _ => ⟨[], rfl, rfl⟩
  | d :: rest, idx, hb => by
    unfold emitTimes
    by_cases hd : d = 0
    · subst hd
      obtain ⟨ts, hts, hmap⟩ := emitTimes_spec fromH upto r rest idx
        (fun x hx => hb x (by simp [hx]))
      rw [if_pos rfl, hts]
      exact ⟨none :: ts, rfl, by simp [slotHours, hmap]⟩
    · rw [if_neg hd]
      have hdle : d ≤ upto - fromH := hb d (by simp)
      rw [if_neg (by omega)]
      obtain ⟨ts, hts, hmap⟩ := emitTimes_spec fromH upto r rest (idx + 1)
        (fun x hx => hb x (by simp [hx]))
      rw [hts]
      refine ⟨some ⟨fromH + r idx % (upto - d - fromH + 1),
        fromH + r idx % (upto - d - fromH + 1) + d⟩ :: ts, rfl, ?_⟩
      simp only [List.map_cons, hmap, slotHours, Nat.add_sub_cancel_left,
        List.cons.injEq, and_true]

/-- Helper: summing the complements of capped values. -/
theorem sum_map_sub_eq (max : ℕ) :
    ∀ l : List ℕ, (∀ x ∈ l, x ≤ max) →
      (l.map fun x => max - x).sum + l.sum = l.length * max
  | [], _ => by simp
  | x :: t, hb => by
    have ih := sum_map_sub_eq max t (fun y hy => hb y (by simp [hy]))
    have hx : x ≤ max := hb x (by simp)
    simp only [List.map_cons, List.sum_cons, List.length_cons]
    rw [Nat.succ_mul]
    omega

/-- Counterexample to C2 as stated: the `u32` capacity product
`days * max_per_day` wraps.  With hours = 1, days = 3,
max_per_day = 1431655766 the real product is 2^32 + 2 but the wrapped
capacity is 2; with window [0, 1431655766] both hypotheses of the claim
hold, yet the program takes the free-time branch on the wrapped capacity
and deterministically returns three slots whose widths sum to 2^32 + 1,
not 1. -/
theorem generate_times_sum_mismatch_cex :
    (1 : ℕ) ≤ 3 * 1431655766 ∧
      (1431655766 : ℕ) ≤ 1431655766 - 0 ∧
      generate_times ⟨1, 3, 0, 1431655766, 1431655766⟩ (fun _ => 0) 0
        = .ok [some ⟨0, 1431655766⟩, some ⟨0, 1431655766⟩,
            some ⟨0, 1431655765⟩] ∧
      (([some ⟨0, 1431655766⟩, some ⟨0, 1431655766⟩,
          some ⟨0, 1431655765⟩] : List (Option Time)).map slotHours).sum
        ≠ 1 := by decide

/-- C2 (amended): for every `Parameters` whose capacity product
days·max_per_day does not wrap (is < 2^32), with
hours ≤ days·max_per_day and max_per_day ≤ to − from, and every random
source, whenever `generate_times` returns, the sum over all emitted slots
of (to − from) (with `None` counting 0, exactly as the caller in
`src/main.rs` sums) equals the requested hours. -/
theorem generate_times_sum_equals_hours
    (p : Parameters) (r : ℕ → ℕ) (fuel : ℕ) (ts : List (Option Time))
    (hnowrap : p.days * p.max_per_day < U32)
    (hcap : p.hours ≤ p.days * p.max_per_day)
    (hwin : p.max_per_day ≤ p.upto - p.fromH)
    (hret : generate_times p r fuel = .ok ts) :
    (ts.map slotHours).sum = p.hours := by
  unfold generate_times at hret
  rw [Nat.mod_eq_of_lt hnowrap] at hret
  rw [if_neg (by omega)] at hret
  cases hp : partition (distributeOf p) p.days p.max_per_day r fuel 0 with
  | panic => rw [hp] at hret; exact absurd hret (by simp)
  | diverge => rw [hp] at hret; exact absurd hret (by simp)
  | ok res =>
    obtain ⟨durations, idx⟩ := res
    rw [hp] at hret
    have hps := partition_ok hp
    obtain ⟨hlen, hbound, hsum⟩ := hps
    by_cases hdft : p.days * p.max_per_day / 2 ≤ p.hours
    · simp only [if_pos hdft] at hret
      have hdistr : distributeOf p = p.days * p.max_per_day - p.hours := by
        unfold distributeOf
        rw [Nat.mod_eq_of_lt hnowrap, if_pos hdft]
      obtain ⟨ts', hts', hmap⟩ := emitTimes_spec p.fromH p.upto r
        (durations.map fun duration => p.max_per_day - duration) idx
        (by
          intro x hx
          obtain ⟨q, _, rfl⟩ := List.mem_map.mp hx
          omega)
      rw [hts'] at hret
      obtain rfl : ts' = ts := by simpa using hret
      rw [hmap]
      have hc := sum_map_sub_eq p.max_per_day durations hbound
      rw [hlen] at hc
      rw [hdistr] at hsum
      omega
    · simp only [if_neg hdft] at hret
      have hdistr : distributeOf p = p.hours := by
        unfold distributeOf
        rw [Nat.mod_eq_of_lt hnowrap, if_neg hdft]
      obtain ⟨ts', hts', hmap⟩ := emitTimes_spec p.fromH p.upto r
        durations idx
        (by
          intro x hx
          have := hbound x hx
          omega)
      rw [List.map_id'] at hret
      rw [hts'] at hret
      obtain rfl : ts' = ts := by simpa using hret
      rw [hmap]
      rw [hdistr] at hsum
      exact hsum

/-- Witness for C2 (amended): 2 hours over 2 days, window 8–20, cap 8. -/
theorem generate_times_sum_equals_hours_witness :
    (([some ⟨9, 10⟩, some ⟨9, 10⟩] : List (Option Time)).map slotHours).sum
      = 2 :=
  generate_times_sum_equals_hours ⟨2, 2, 8, 20, 8⟩ (fun _ => 1) 0
    [some ⟨9, 10⟩, some ⟨9, 10⟩] (by decide) (by decide) (by decide)
    (by decide)

/-! ## Helper lemmas: `add_days` -/

/-- Helper: every in-range day-of-year reconstructs to a valid date whose
day-of-year is the original value (checked for both tables). -/
theorem dateOfDoy_spec (leap : Bool) (v : ℕ) (h1 : 1 ≤ v)
    (h2 : v ≤ daysInYear leap) :
    validDate leap (dateOfDoy leap v) ∧
      dayOfYearOf leap (dateOfDoy leap v).month (dateOfDoy leap v).day = v := by
  cases leap with
  | false =>
    have hb : ∀ w < 366, 1 ≤ w →
        validDate false (dateOfDoy false w) ∧
          dayOfYearOf false (dateOfDoy false w).month
            (dateOfDoy false w).day = w := by decide
    refine hb v ?_ h1
    have he : daysInYear false = 365 := rfl
    omega
  | true =>
    have hb : ∀ w < 367, 1 ≤ w →
        validDate true (dateOfDoy true w) ∧
          dayOfYearOf true (dateOfDoy true w).month
            (dateOfDoy true w).day = w := by decide
    refine hb v ?_ h1
    have he : daysInYear true = 366 := rfl
    omega

/-- Helper: reconstruction is the left inverse of day-of-year on valid
dates (checked for both tables and all candidate dates). -/
theorem dateOfDoy_dayOfYearOf (leap : Bool) (d : DateOfYear)
    (hv : validDate leap d) :
    dateOfDoy leap (dayOfYearOf leap d.month d.day) = d := by
  obtain ⟨day, month⟩ := d
  have hd31 : day < 32 := by
    have := hv.2.2.2
    have hle : days_of_month month leap ≤ 31 := by
      unfold days_of_month
      split
      · split <;> omega
      all_goals omega
    simp only at this
    omega
  cases leap with
  | false =>
    have hb : ∀ m < 13, ∀ dy < 32, validDate false ⟨dy, m⟩ →
        dateOfDoy false (dayOfYearOf false m dy) = ⟨dy, m⟩ := by decide
    exact hb month (by have := hv.2.1; simp only at this; omega) day hd31 hv
  | true =>
    have hb : ∀ m < 13, ∀ dy < 32, validDate true ⟨dy, m⟩ →
        dateOfDoy true (dayOfYearOf true m dy) = ⟨dy, m⟩ := by decide
    exact hb month (by have := hv.2.1; simp only at this; omega) day hd31 hv

theorem days_of_month_le_31 (m : ℕ) (leap : Bool) :
    days_of_month m leap ≤ 31 := by
  unfold days_of_month
  split
  · split <;> omega
  all_goals omega

/-- Helper: a default read from a list of bounded naturals is bounded. -/
theorem getD_le_of_forall {l : List ℕ} {dflt bound : ℕ} (hd : dflt ≤ bound)
    (h : ∀ x ∈ l, x ≤ bound) (i : ℕ) : l.getD i dflt ≤ bound := by
  rw [List.getD_eq_getElem?_getD]
  cases hg : l[i]? with
  | none => simpa using hd
  | some x =>
    obtain ⟨hi, hEq⟩ := List.getElem?_eq_some.mp hg
    simpa using h x (hEq ▸ List.getElem_mem hi)

/-- Helper: every cumulative-table entry is at most 335. -/
theorem days_to_month_getD_le (leap : Bool) (i : ℕ) :
    (DAYS_TO_MONTH leap).getD i 0 ≤ 335 := by
  refine getD_le_of_forall (by omega) ?_ i
  intro x hx
  cases leap <;> simp [DAYS_TO_MONTH] at hx <;> omega

/-- Helper: the day-of-year of a valid date is at most 366. -/
theorem dayOfYearOf_le_366 (leap : Bool) (d : DateOfYear)
    (hv : validDate leap d) :
    dayOfYearOf leap d.month d.day ≤ 366 := by
  unfold dayOfYearOf
  have h1 := days_to_month_getD_le leap (d.month - 1)
  have h2 := hv.2.2.2
  have h3 := days_of_month_le_31 d.month leap
  omega

/-- Helper: on a month in range, a day-of-year within the `i32` range and
a shifted day-of-year that is positive and still fits in `i32`, `add_days`
returns exactly the reconstructed date. -/
theorem add_days_eq (d : DateOfYear) (x : ℤ) (leap : Bool)
    (hm1 : 1 ≤ d.month) (hm2 : d.month ≤ 12)
    (hdoy : dayOfYearOf leap d.month d.day ≤ 366)
    (h1 : 1 ≤ (dayOfYearOf leap d.month d.day : ℤ) + x)
    (h2 : (dayOfYearOf leap d.month d.day : ℤ) + x ≤ 2 ^ 31 - 1) :
    d.add_days x leap =
      some (dateOfDoy leap ((dayOfYearOf leap d.month d.day : ℤ) + x).toNat) := by
  simp only [dayOfYearOf, List.getD_eq_getElem?_getD] at hdoy h1 h2 ⊢
  simp only [DateOfYear.add_days, List.getD_eq_getElem?_getD]
  rw [if_neg (by omega)]
  rw [if_neg (by omega)]
  rw [if_neg (by omega)]
  have hzero : (0 : ℕ) ∈ DAYS_TO_MONTH leap := by
    cases leap <;> simp [DAYS_TO_MONTH]
  have hc : (DAYS_TO_MONTH leap).countP
      (fun e => decide
        (e < ((((DAYS_TO_MONTH leap)[d.month - 1]?.getD 0 + d.day : ℕ) : ℤ)
          + x).toNat)) ≠ 0 := by
    have : 0 < (DAYS_TO_MONTH leap).countP
        (fun e => decide
          (e < ((((DAYS_TO_MONTH leap)[d.month - 1]?.getD 0 + d.day : ℕ) : ℤ)
            + x).toNat)) := by
      rw [List.countP_pos_iff]
      exact ⟨0, hzero, by simp; omega⟩
    omega
  rw [if_neg hc]
  simp only [dateOfDoy, List.getD_eq_getElem?_getD]

/-! ## C4 -/

/-- C4: `add_days` round-trips — for every valid date, leap flag, and
delta such that the shifted day-of-year stays within the valid range,
adding the delta and then its negation returns the original date; the
tie-break when a shifted day-of-year equals a cumulative-table entry is
consistent with this round-trip (no tie is excluded by the hypotheses). -/
theorem add_days_round_trips (d : DateOfYear) (leap : Bool) (x : ℤ)
    (hv : validDate leap d)
    (hlo : 1 ≤ (dayOfYearOf leap d.month d.day : ℤ) + x)
    (hhi : (dayOfYearOf leap d.month d.day : ℤ) + x ≤ daysInYear leap) :
    (d.add_days x leap).bind (fun e => e.add_days (-x) leap) = some d := by
  have hdoyd : 1 ≤ dayOfYearOf leap d.month d.day := by
    unfold dayOfYearOf
    have := hv.2.2.1
    omega
  have hdoy366 := dayOfYearOf_le_366 leap d hv
  have hdy366 : daysInYear leap ≤ 366 := by cases leap <;> decide
  have h1 := add_days_eq d x leap hv.1 hv.2.1 hdoy366 hlo (by omega)
  set v : ℕ := ((dayOfYearOf leap d.month d.day : ℤ) + x).toNat with hvdef
  have hv1 : 1 ≤ v := by omega
  have hv2 : v ≤ daysInYear leap := by omega
  obtain ⟨hvalid', hdoy'⟩ := dateOfDoy_spec leap v hv1 hv2
  have h2 := add_days_eq (dateOfDoy leap v) (-x) leap hvalid'.1 hvalid'.2.1
    (by rw [hdoy']; omega) (by rw [hdoy']; omega) (by rw [hdoy']; omega)
  rw [h1]
  simp only [Option.some_bind]
  rw [h2, hdoy']
  have hback : (((v : ℕ) : ℤ) + -x).toNat = dayOfYearOf leap d.month d.day := by
    omega
  rw [hback, dateOfDoy_dayOfYearOf leap d hv]

/-- Witness for C4: January 1 + 31 days − 31 days, non-leap. -/
theorem add_days_round_trips_witness :
    ((DateOfYear.mk 1 1).add_days 31 false).bind
      (fun e => e.add_days (-31) false) = some ⟨1, 1⟩ :=
  add_days_round_trips ⟨1, 1⟩ false 31 (by decide) (by decide) (by decide)

/-! ## C10 -/

/-- Counterexample to C10 as stated: shifting December 31 (day-of-year
365, non-leap) by +5 leaves the valid range, yet `add_days` does not
abort — it silently returns the invalid date "December 36". -/
theorem add_days_above_range_returns_cex :
    (365 : ℤ) < (dayOfYearOf false 12 31 : ℤ) + 5 ∧
      DateOfYear.add_days ⟨31, 12⟩ 5 false = some ⟨36, 12⟩ ∧
      ¬ validDate false ⟨36, 12⟩ := by decide

/-- C10 (amended): when the shifted day-of-year falls below 1 the
computation aborts (panics), and when the shift overflows `i32` (exceeds
2^31 − 1) it likewise aborts; but when it exceeds the valid range
(365/366) while still fitting in `i32`, `add_days` does not abort: it
silently returns an out-of-range date in month 12 whose day exceeds
December's length. -/
theorem add_days_aborts_below_not_above (d : DateOfYear) (x : ℤ)
    (leap : Bool) (hv : validDate leap d) :
    ((dayOfYearOf leap d.month d.day : ℤ) + x ≤ 0 →
      d.add_days x leap = none) ∧
    (2 ^ 31 - 1 < (dayOfYearOf leap d.month d.day : ℤ) + x →
      d.add_days x leap = none) ∧
    ((daysInYear leap : ℤ) < (dayOfYearOf leap d.month d.day : ℤ) + x →
      (dayOfYearOf leap d.month d.day : ℤ) + x ≤ 2 ^ 31 - 1 →
      ∃ d', d.add_days x leap = some d' ∧ d'.month = 12 ∧ 31 < d'.day) := by
  have hdoy366 := dayOfYearOf_le_366 leap d hv
  refine ⟨?_, ?_, ?_⟩
  · intro hle
    simp only [dayOfYearOf, List.getD_eq_getElem?_getD] at hle hdoy366
    simp only [DateOfYear.add_days, List.getD_eq_getElem?_getD]
    rw [if_neg (by have := hv.1; have := hv.2.1; omega)]
    rw [if_neg (by omega)]
    by_cases hneg :
        ((((DAYS_TO_MONTH leap)[d.month - 1]?.getD 0 + d.day : ℕ) : ℤ) + x) < 0
    · rw [if_pos (Or.inl hneg)]
    · rw [if_neg (by omega)]
      have hv0 :
          ((((DAYS_TO_MONTH leap)[d.month - 1]?.getD 0 + d.day : ℕ) : ℤ)
            + x).toNat = 0 := by omega
      rw [hv0]
      have hcz : (DAYS_TO_MONTH leap).countP
          (fun e => decide (e < 0)) = 0 := by
        cases leap <;> decide
      rw [if_pos hcz]
  · intro hover
    simp only [dayOfYearOf, List.getD_eq_getElem?_getD] at hover hdoy366
    simp only [DateOfYear.add_days, List.getD_eq_getElem?_getD]
    rw [if_neg (by have := hv.1; have := hv.2.1; omega)]
    rw [if_neg (by omega)]
    rw [if_pos (Or.inr hover)]
  · intro hgt hfit
    simp only [dayOfYearOf, List.getD_eq_getElem?_getD] at hgt hfit hdoy366
    simp only [DateOfYear.add_days, List.getD_eq_getElem?_getD]
    rw [if_neg (by have := hv.1; have := hv.2.1; omega)]
    rw [if_neg (by omega)]
    rw [if_neg (by omega)]
    set v : ℕ :=
      ((((DAYS_TO_MONTH leap)[d.month - 1]?.getD 0 + d.day : ℕ) : ℤ)
        + x).toNat with hvdef
    have hvbig : daysInYear leap < v := by omega
    have h365 : 365 ≤ daysInYear leap := by cases leap <;> decide
    have hc : (DAYS_TO_MONTH leap).countP (fun e => decide (e < v)) = 12 := by
      have hlen : (DAYS_TO_MONTH leap).length = 12 := by
        cases leap <;> rfl
      rw [← hlen]
      rw [List.countP_eq_length]
      intro a ha
      have hble : a ≤ 335 := by
        cases leap <;> simp [DAYS_TO_MONTH] at ha <;> omega
      simp only [decide_eq_true_eq]
      omega
    rw [if_neg (by rw [hc]; omega)]
    refine ⟨_, rfl, ?_, ?_⟩
    · show (DAYS_TO_MONTH leap).countP (fun e => decide (e < v)) = 12
      exact hc
    · show 31 < v - (DAYS_TO_MONTH leap)[(DAYS_TO_MONTH leap).countP
        (fun e => decide (e < v)) - 1]?.getD 0
      rw [hc]
      have hgd : (DAYS_TO_MONTH leap)[12 - 1]?.getD 0 + 31 = daysInYear leap := by
        cases leap <;> decide
      omega

/-- Witness for C10 (amended): all three branches at concrete inputs —
December 31 shifted by −365 aborts, December 31 shifted by 2^31 overflows
`i32` and aborts, December 31 shifted by +5 lands on "December 36". -/
theorem add_days_aborts_below_not_above_witness :
    DateOfYear.add_days ⟨31, 12⟩ (-365) false = none ∧
      DateOfYear.add_days ⟨31, 12⟩ (2 ^ 31) false = none ∧
      ∃ d', DateOfYear.add_days ⟨31, 12⟩ 5 false = some d' ∧
        d'.month = 12 ∧ 31 < d'.day :=
  ⟨(add_days_aborts_below_not_above ⟨31, 12⟩ (-365) false (by decide)).1
      (by decide),
   (add_days_aborts_below_not_above ⟨31, 12⟩ (2 ^ 31) false (by decide)).2.1
      (by decide),
   (add_days_aborts_below_not_above ⟨31, 12⟩ 5 false (by decide)).2.2
      (by decide) (by decide)⟩

/-! ## C5 -/

/-- C5: for every year in [1970, 2100], `Year::easter` returns (without
panicking) a date between March 22 and April 25 inclusive; in particular
easter(2000) = April 23 and easter(2024) = March 31. -/
theorem easter_between_march22_april25 :
    (∀ y : ℕ, 1970 ≤ y → y ≤ 2100 →
      ∃ e, (Year.new y).easter = some e ∧
        ((e.month = 3 ∧ 22 ≤ e.day ∧ e.day ≤ 31) ∨
          (e.month = 4 ∧ 1 ≤ e.day ∧ e.day ≤ 25))) ∧
    (Year.new 2000).easter = some ⟨23, 4⟩ ∧
      (Year.new 2024).easter = some ⟨31, 3⟩ := by
  refine ⟨?_, by decide, by decide⟩
  intro y hy1 hy2
  have hb : ∀ k < 131,
      ∃ e, (Year.new (1970 + k)).easter = some e ∧
        ((e.month = 3 ∧ 22 ≤ e.day ∧ e.day ≤ 31) ∨
          (e.month = 4 ∧ 1 ≤ e.day ∧ e.day ≤ 25)) := by decide
  have h := hb (y - 1970) (by omega)
  rw [show 1970 + (y - 1970) = y from by omega] at h
  exact h

/-- Witness for C5: the year 1999 (Easter April 4, 1999). -/
theorem easter_between_march22_april25_witness :
    ∃ e, (Year.new 1999).easter = some e ∧
      ((e.month = 3 ∧ 22 ≤ e.day ∧ e.day ≤ 31) ∨
        (e.month = 4 ∧ 1 ≤ e.day ∧ e.day ≤ 25)) :=
  easter_between_march22_april25.1 1999 (by decide) (by decide)

/-! ## C3 -/

/-- C3 (divergence exhibited): the claim says `Month::days()` yields
exactly `num_days` elements — but the guard `day_of_month + 1 < num_days`
stops one day early.  For January 2023 (`num_days = 31`) the walker yields
exactly the 30 days 1..30, never day 31.  (The weekday start — Sunday,
January 1, 2023 — and the day-by-day progression are as claimed; only the
element count is off by one.) -/
theorem month_days_misses_last_day :
    (Month.new 1 (Year.new 2023)).num_days = 31 ∧
      (Month.new 1 (Year.new 2023)).days.length = 30 ∧
      (Month.new 1 (Year.new 2023)).days.map (fun d => d.day_of_month)
        = List.range' 1 30 ∧
      (Month.new 1 (Year.new 2023)).days.head? =
        some ⟨DayOfWeek.Sunday, 1⟩ := by decide

/-! ## C6 -/

/-- Helper: whenever `Year::holidays` returns, the returned collection has
exactly 13 dates. -/
theorem holidays_length {y : Year} {hs : List DateOfYear}
    (h : y.holidays = some hs) : hs.length = 13 := by
  unfold Year.holidays at h
  rw [Option.bind_eq_bind] at h
  cases he : y.easter <;> rw [he] at h
  · rw [Option.none_bind] at h
    exact absurd h (by simp)
  rename_i e
  rw [Option.some_bind,
    show DateOfYear.new_checked 1 1 = some ⟨1, 1⟩ from rfl, Option.some_bind,
    show DateOfYear.new_checked 6 1 = some ⟨6, 1⟩ from rfl,
    Option.some_bind] at h
  cases h2 : e.add_days (-2) y.is_leap <;> rw [h2] at h
  · rw [Option.none_bind] at h
    exact absurd h (by simp)
  rename_i gf
  rw [Option.some_bind] at h
  cases h3 : e.add_days 1 y.is_leap <;> rw [h3] at h
  · rw [Option.none_bind] at h
    exact absurd h (by simp)
  rename_i em
  rw [Option.some_bind,
    show DateOfYear.new_checked 1 5 = some ⟨1, 5⟩ from rfl,
    Option.some_bind] at h
  cases h4 : e.add_days 39 y.is_leap <;> rw [h4] at h
  · rw [Option.none_bind] at h
    exact absurd h (by simp)
  rename_i asc
  rw [Option.some_bind] at h
  cases h5 : e.add_days 50 y.is_leap <;> rw [h5] at h
  · rw [Option.none_bind] at h
    exact absurd h (by simp)
  rename_i wm
  rw [Option.some_bind] at h
  cases h6 : e.add_days 60 y.is_leap <;> rw [h6] at h
  · rw [Option.none_bind] at h
    exact absurd h (by simp)
  rename_i cc
  rw [Option.some_bind,
    show DateOfYear.new_checked 15 8 = some ⟨15, 8⟩ from rfl, Option.some_bind,
    show DateOfYear.new_checked 3 10 = some ⟨3, 10⟩ from rfl, Option.some_bind,
    show DateOfYear.new_checked 1 11 = some ⟨1, 11⟩ from rfl, Option.some_bind,
    show DateOfYear.new_checked 25 12 = some ⟨25, 12⟩ from rfl,
    Option.some_bind,
    show DateOfYear.new_checked 26 12 = some ⟨26, 12⟩ from rfl,
    Option.some_bind] at h
  rw [← Option.some.inj h]
  rfl

/-- C6: for every month and year, the list built by
`non_holidays_of_month` contains no day whose computed day-of-week is
Saturday or Sunday and none whose (day, month) pair lies in the year's
13-element holiday set; in particular for December 2023, December 25 and
26 are excluded although their computed weekdays are not weekend days. -/
theorem non_holidays_excludes_weekends_and_holidays :
    (∀ (m : Month) (y : Year) (day : DayOfMonth),
      day ∈ (non_holidays_of_month m y).getD [] →
        day.day_of_week ≠ .Saturday ∧ day.day_of_week ≠ .Sunday ∧
          DateOfYear.mk day.day_of_month m.month ∉ y.holidays.getD []) ∧
    (∀ (y : Year) (hs : List DateOfYear), y.holidays = some hs →
      hs.length = 13) ∧
    ((∀ day ∈ (non_holidays_of_month (Month.new 12 (Year.new 2023))
        (Year.new 2023)).getD [],
        day.day_of_month ≠ 25 ∧ day.day_of_month ≠ 26) ∧
      DateOfYear.mk 25 12 ∈ (Year.new 2023).holidays.getD [] ∧
      DateOfYear.mk 26 12 ∈ (Year.new 2023).holidays.getD [] ∧
      ((Month.new 12 (Year.new 2023)).day_of_week 25).is_weekend = false ∧
      ((Month.new 12 (Year.new 2023)).day_of_week 26).is_weekend = false) := by
  refine ⟨?_, fun y hs h => holidays_length h, by decide⟩
  intro m y day hmem
  cases hh : y.holidays with
  | none =>
    unfold non_holidays_of_month at hmem
    rw [hh] at hmem
    simp at hmem
  | some hs =>
    unfold non_holidays_of_month at hmem
    rw [hh] at hmem
    simp only [Option.map_some', Option.getD_some] at hmem
    rw [List.mem_filter] at hmem
    obtain ⟨-, hpred⟩ := hmem
    simp only [Bool.and_eq_true, Bool.not_eq_true'] at hpred
    obtain ⟨hweek, hcont⟩ := hpred
    refine ⟨?_, ?_, ?_⟩
    · intro hEq
      rw [hEq] at hweek
      simp [DayOfWeek.is_weekend] at hweek
    · intro hEq
      rw [hEq] at hweek
      simp [DayOfWeek.is_weekend] at hweek
    · rw [Option.getD_some]
      intro hin
      have helem := List.elem_iff.mpr hin
      simp only [List.contains] at hcont
      rw [helem] at hcont
      simp at hcont

/-- Witness for C6: the first working day of December 2023 (Friday,
December 1) is neither a weekend day nor a holiday. -/
theorem non_holidays_excludes_weekends_and_holidays_witness :
    (DayOfMonth.mk .Friday 1).day_of_week ≠ DayOfWeek.Saturday ∧
      (DayOfMonth.mk .Friday 1).day_of_week ≠ DayOfWeek.Sunday ∧
      DateOfYear.mk (DayOfMonth.mk .Friday 1).day_of_month
          (Month.new 12 (Year.new 2023)).month
        ∉ (Year.new 2023).holidays.getD [] :=
  non_holidays_excludes_weekends_and_holidays.1
    (Month.new 12 (Year.new 2023)) (Year.new 2023)
    (DayOfMonth.mk .Friday 1) (by decide)

/-! ## C7 helpers: periodicity and the code-vs-count congruence -/

/-- Helper: every month code is at most 6. -/
theorem get_month_le (m : ℕ) : codes.get_month m ≤ 6 := by
  unfold codes.get_month codes.MONTH_CODES
  match h : m - 1 with
  | 0 | 1 | 2 | 3 | 4 | 5 | 6 | 7 | 8 | 9 | 10 | 11 => decide
  | n + 12 =>
    rw [List.getD_eq_default]
    · omega
    · simp

/-- Helper: the day count advances by exactly 146097 days every 400
years (the Gregorian cycle). -/
theorem totalDays_add_400 (y : ℕ) :
    totalDays (y + 400) = totalDays y + 146097 := by
  have h1 := totalDays_closed (y + 400)
  have h2 := totalDays_closed y
  omega

/-- Helper: modulo 7 the day count only depends on the year modulo 400
(146097 is divisible by 7). -/
theorem totalDays_mod_eq (y : ℕ) :
    totalDays y % 7 = totalDays (y % 400) % 7 := by
  induction y using Nat.strong_induction_on with
  | _ y ih =>
    by_cases h : y < 400
    · rw [Nat.mod_eq_of_lt h]
    · obtain ⟨z, rfl⟩ : ∃ z, y = z + 400 := ⟨y - 400, by omega⟩
      rw [totalDays_add_400]
      have hmod : (z + 400) % 400 = z % 400 := by omega
      rw [hmod]
      have := ih z (by omega)
      omega

/-- Helper: the central congruence — in a leap year, the source's year
code plus century code plus one agrees with the true day count modulo 7
(reduced to the 400-year cycle and checked there). -/
theorem year_code_aligns (y : ℕ) (h : is_leap_year y = true) :
    (codes.get_year y + codes.get_century y + 1) % 7 = totalDays y % 7 := by
  have hres : ∀ r < 400, is_leap_year r = true →
      (codes.get_year r + codes.get_century r + 1) % 7
        = totalDays r % 7 := by decide
  have hgy : codes.get_year y = codes.get_year (y % 400) := by
    unfold codes.get_year
    have h1 : y % 100 = y % 400 % 100 := by omega
    rw [h1]
  have hgc : codes.get_century y = codes.get_century (y % 400) := by
    unfold codes.get_century
    omega
  have hlp : is_leap_year (y % 400) = true := by
    unfold is_leap_year at h ⊢
    simp only [Bool.and_eq_true, beq_iff_eq, Bool.or_eq_true,
      bne_iff_ne] at h ⊢
    omega
  rw [hgy, hgc, totalDays_mod_eq]
  exact hres (y % 400) (by omega) hlp

/-- Helper: resolving the wrapped `u32` arithmetic of the combined code in
a leap year — the wrap of the underflowing subtraction cancels, leaving a
plain `+ 6` (≡ −1) shift modulo 7. -/
theorem day_of_week_wrap (a b c dd : ℕ) (ha : a < 7) (hb : b < 8)
    (hc : c ≤ 6) (hd1 : 1 ≤ dd) (hd2 : dd ≤ 31) :
    (dd + ((a + b + (U32 - 1)) % U32 + c) % U32) % U32 % 7
      = (dd + c + a + b + 6) % 7 := by
  unfold U32
  omega

/-- Helper: `ofCode` turns the cyclic +1 on codes below 7 into the cyclic
successor of weekdays. -/
theorem ofCode_next : ∀ a < 7, ∀ b < 7, (a + 1) % 7 = b →
    (DayOfWeek.ofCode a).next = DayOfWeek.ofCode b := by decide

/-- Helper: for months ≥ 3 the month code is congruent (mod 7) to the
leap cumulative-table entry minus one. -/
theorem month_code_aligned : ∀ m, 3 ≤ m → m ≤ 12 →
    (codes.get_month m + 7) % 7
      = ((DAYS_TO_MONTH true).getD (m - 1) 0 + 6) % 7 := by
  have hb : ∀ mm < 13, 3 ≤ mm →
      (codes.get_month mm + 7) % 7
        = ((DAYS_TO_MONTH true).getD (mm - 1) 0 + 6) % 7 := by decide
  intro m h3 h12
  exact hb m (by omega) h3

/-! ## C7 -/

/-- C7: `Year::new` subtracts the leap-year correction from the combined
code for all twelve months, not only January and February; consequently in
every leap year, for every date from March 1 onward, `Month::day_of_week`
computes the cyclic predecessor of the true Gregorian weekday (equivalently
its `next` is the true weekday) — e.g. March 1, 2000 is computed as Tuesday
although it was a Wednesday, while January 1, 2000 is correctly computed as
Saturday. -/
theorem leap_correction_applied_to_all_months :
    (∀ (y m dd : ℕ), is_leap_year y = true → 3 ≤ m → m ≤ 12 →
      1 ≤ dd → dd ≤ days_of_month m true →
      ((Month.new m (Year.new y)).day_of_week dd).next
        = trueDayOfWeek y m dd) ∧
    (Month.new 3 (Year.new 2000)).day_of_week 1 = .Tuesday ∧
    trueDayOfWeek 2000 3 1 = .Wednesday ∧
    (Month.new 1 (Year.new 2000)).day_of_week 1 = .Saturday ∧
    trueDayOfWeek 2000 1 1 = .Saturday := by
  refine ⟨?_, by decide, trueDayOfWeek_anchors.2.2.1, by decide,
    trueDayOfWeek_anchors.1⟩
  intro y m dd hy h3 h12 hd1 hd2
  have hd31 : dd ≤ 31 := le_trans hd2 (days_of_month_le_31 m true)
  simp only [Month.day_of_week, Month.new, Year.new, codes.day_of_week,
    hy, if_true]
  rw [day_of_week_wrap (codes.get_year y) (codes.get_century y)
    (codes.get_month m) dd
    (Nat.mod_lt _ (by norm_num)) (Nat.mod_lt _ (by norm_num))
    (get_month_le m) hd1 hd31]
  simp only [trueDayOfWeek, dayOfYearOf, hy]
  refine ofCode_next _ (Nat.mod_lt _ (by norm_num)) _
    (Nat.mod_lt _ (by norm_num)) ?_
  have hF := year_code_aligns y hy
  have hM := month_code_aligned m h3 h12
  omega

/-- Witness for C7: March 1, 2024. -/
theorem leap_correction_applied_to_all_months_witness :
    ((Month.new 3 (Year.new 2024)).day_of_week 1).next
      = trueDayOfWeek 2024 3 1 :=
  leap_correction_applied_to_all_months.1 2024 3 1 (by decide) (by decide)
    (by decide) (by decide) (by decide)

end Stz
